import Mathlib

/-!
Verification of the 4cat word2vec processor
(`processors/text-analysis/generate_word2vec.py`).

The embedding models the processor's `process` and `tokens_from_file`
methods over explicit inputs: a source archive is a list of
`(member name, member content)` pairs, file contents are `List Char`,
and the externally set interruption flag is a function from poll index
to `Bool` (the code polls `self.interrupted` at defined points; we
number those polls in program order).

`tokens_from_file` contains `yield`, so in Python it is a generator.
Its iteration is modelled eagerly: the run of the generator body is a
list of events (polls, yields), the list of yielded values, and a
terminal outcome.  Python ≥ 3.7 (PEP 479) semantics are modelled: a
`raise StopIteration` inside a generator body surfaces to the consumer
as a `RuntimeError`, and a `return v` inside a generator body ends the
iteration with the value `v` discarded.

`json.loads` / `json.load` are modelled by an executable parser
restricted to the value shapes this program ever serializes: JSON
strings without escape sequences and (nested) arrays of such values.
All concrete inputs used below stay inside this fragment, where the
model agrees with Python's `json`.
-/

namespace GenWord2Vec

/-! ### Python string helpers -/

/-- Whitespace stripped by Python's `str.strip()`. -/
def pyIsSpace (c : Char) : Bool :=
  c = ' ' || c = '\t' || c = '\n' || c = '\r' || c = '\x0b' || c = '\x0c'

/-- Drop matching characters from the end of a list. -/
def dropTrailing (p : Char → Bool) (l : List Char) : List Char :=
  (l.reverse.dropWhile p).reverse

/-- Python `str.strip()`. -/
def pyStrip (l : List Char) : List Char :=
  dropTrailing pyIsSpace (l.dropWhile pyIsSpace)

/-- Split into the successive results of Python `file.readline()`:
each line keeps its trailing newline; a final segment without a newline
is kept; at end of file `readline` returns `""` (handled by the reader
loop, not listed here). -/
def splitLinesAux (cur : List Char) : List Char → List (List Char)
  | [] => if cur = [] then [] else [cur.reverse]
  | c :: rest =>
    if c = '\n' then (cur.reverse ++ ['\n']) :: splitLinesAux [] rest
    else splitLinesAux (c :: cur) rest

def splitLines (l : List Char) : List (List Char) :=
  splitLinesAux [] l

/-- Python `s.split(sep)` for a one-character separator
(`"".split(sep) = [""]`, so the result is always nonempty). -/
def splitOnCharAux (sep : Char) (cur : List Char) : List Char → List (List Char)
  | [] => [cur.reverse]
  | c :: rest =>
    if c = sep then cur.reverse :: splitOnCharAux sep [] rest
    else splitOnCharAux sep (c :: cur) rest

def splitOnChar (sep : Char) (l : List Char) : List (List Char) :=
  splitOnCharAux sep [] l

/-- `token_set.split("/")[-1]` — the last path component. -/
def lastComponent (l : List Char) : List Char :=
  (splitOnChar '/' l).getLastD []

/-- `token_set_name.split(".")[0] + ".model"` (line 131). -/
def modelNameFor (tsName : List Char) : List Char :=
  (splitOnChar '.' tsName).headD [] ++ (".model").data

/-- `pathlib.Path.suffix` of a file name: `name[i:]` where
`i = name.rfind(".")`, provided `0 < i < len(name) - 1`, else `""`.
`afterLastDot` returns the characters after the last `.` of its
argument, or `none` when it has no dot. -/
def afterLastDot : List Char → Option (List Char)
  | [] => none
  | c :: rest =>
    match afterLastDot rest with
    | some s => some s
    | none => if c = '.' then some rest else none

/-- `Path.suffix`, computed on the path's final component: empty unless
the name has a dot at an index `i` with `0 < i < len - 1`, in which
case it is the dot and everything after it. -/
def pySuffix (name : List Char) : List Char :=
  match name with
  | [] => []
  | _ :: rest =>
    match afterLastDot rest with
    | some s => if s = [] then [] else '.' :: s
    | none => []

/-! ### Restricted model of `json.loads` -/

inductive JVal where
  | str (s : List Char)
  | arr (xs : List JVal)

/-- JSON whitespace (RFC 8259: space, tab, newline, carriage return). -/
def jsonWs (c : Char) : Bool :=
  c = ' ' || c = '\t' || c = '\n' || c = '\r'

def skipWs (l : List Char) : List Char :=
  l.dropWhile jsonWs

/-- Parse the remainder of a JSON string after its opening quote.
Escape sequences are outside the modelled fragment and fail. -/
def pStr : List Char → Option (List Char × List Char)
  | [] => none
  | c :: rest =>
    if c = '"' then some ([], rest)
    else if c = '\\' then none
    else (pStr rest).map (fun p => (c :: p.1, p.2))

mutual

/-- Parse one JSON value (string or array) of the modelled fragment,
returning it and the unconsumed input. -/
def pVal : Nat → List Char → Option (JVal × List Char)
  | 0, _ => none
  | Nat.succ fuel, input =>
    match skipWs input with
    | '"' :: rest => (pStr rest).map (fun p => (JVal.str p.1, p.2))
    | '[' :: rest =>
      match skipWs rest with
      | ']' :: r2 => some (JVal.arr [], r2)
      | other => (pElems fuel other).map (fun p => (JVal.arr p.1, p.2))
    | _ => none

/-- Parse the elements of a nonempty JSON array, up to and including
the closing bracket. -/
def pElems : Nat → List Char → Option (List JVal × List Char)
  | 0, _ => none
  | Nat.succ fuel, input =>
    match pVal fuel input with
    | none => none
    | some (v, r) =>
      match skipWs r with
      | ',' :: r2 => (pElems fuel r2).map (fun p => (v :: p.1, p.2))
      | ']' :: r2 => some ([v], r2)
      | _ => none

end

/-- `json.loads` on the modelled fragment: one JSON document, with
nothing but whitespace after it.  The fuel `2 * length + 4` dominates
the recursion depth (each two nested calls consume a character). -/
def jsonLoads (l : List Char) : Option JVal :=
  match pVal (2 * l.length + 4) l with
  | some (v, rest) => if skipWs rest = [] then some v else none
  | none => none

/-! ### The token stream reader (`tokens_from_file`, lines 150-187) -/

/-- Terminal outcome of iterating the generator, or of a whole run.
`runtimeError` is PEP 479: `raise StopIteration` inside a generator
body (line 176) reaches the consumer as a `RuntimeError`.
`decodeError` is an uncaught `json.JSONDecodeError`.  `pickleLoad`
marks the `pickle.load` branch (lines 160-162), and `extractError` a
`KeyError` from `ZipFile.extract` on a missing member name. -/
inductive Outcome where
  | ok
  | interrupted
  | decodeError
  | runtimeError
  | extractError
  | pickleLoad
deriving DecidableEq

/-- Observable events of a run, in program order.  `poll i res` is the
`i`-th read of `self.interrupted` (lines 107 and 171); `yieldTok`
marks a `yield token_set` (line 182); `fileStart` marks the start of
one token set's processing; `save` marks `model.wv.save` (line 132). -/
inductive Ev where
  | poll (i : Nat) (res : Bool)
  | fileStart (name : List Char)
  | yieldTok
  | save (name : List Char)
deriving DecidableEq

/-- One full iteration of the `tokens_from_file` generator: its events
(polls and yield markers), the sequence of yielded values, the next
free poll index, and how the iteration ended. -/
structure ReadOut where
  events : List Ev
  yields : List JVal
  next : Nat
  stop : Outcome

/-- The `while True` loop of `tokens_from_file` (lines 166-187), over
the successive `readline()` results.  `full` is the entire file
content (for the `input.seek(0); return json.load(input)` fallback).
The `[]` case is `readline()` returning `""` at end of file: the
`line is None` break never fires (`readline` never returns `None`),
`"" != "]"`, and `json.loads("")` fails, so control reaches the
whole-file fallback.  A `return` inside the generator ends the
iteration with its value discarded (`Outcome.ok`). -/
def readLoop (full : List Char) (pollF : Nat → Bool) :
    List (List Char) → Nat → ReadOut
  | [], i =>
    if pollF i then ⟨[Ev.poll i true], [], i + 1, Outcome.interrupted⟩
    else
      match jsonLoads full with
      | some _ => ⟨[Ev.poll i false], [], i + 1, Outcome.ok⟩
      | none => ⟨[Ev.poll i false], [], i + 1, Outcome.decodeError⟩
  | line :: rest, i =>
    if pollF i then ⟨[Ev.poll i true], [], i + 1, Outcome.interrupted⟩
    else if line = [']'] then
      ⟨[Ev.poll i false], [], i + 1, Outcome.runtimeError⟩
    else
      match jsonLoads ((pyStrip line).dropLast) with
      | some v =>
        let ro := readLoop full pollF rest (i + 1)
        ⟨Ev.poll i false :: Ev.yieldTok :: ro.events, v :: ro.yields, ro.next, ro.stop⟩
      | none =>
        match jsonLoads full with
        | some _ => ⟨[Ev.poll i false], [], i + 1, Outcome.ok⟩
        | none => ⟨[Ev.poll i false], [], i + 1, Outcome.decodeError⟩

/-- The text branch of `tokens_from_file`: `input.seek(1)` skips the
first character, then the line loop runs; the whole-file fallback
rereads from position 0. -/
def textTokensFromFile (content : List Char) (pollF : Nat → Bool) (i : Nat) : ReadOut :=
  readLoop content pollF (splitLines (content.drop 1)) i

/-- `tokens_from_file(file)` iterated to exhaustion, for a staged file
at path `file` with the given content.  The guard on line 160 compares
`file.suffix` with the string `"pb"`. -/
def tokens_from_file (file : List Char) (content : List Char)
    (pollF : Nat → Bool) (i : Nat) : ReadOut :=
  if pySuffix (lastComponent file) = ('p' :: 'b' :: []) then
    ⟨[], [], i, Outcome.pickleLoad⟩
  else textTokensFromFile content pollF i

/-! ### The parameter surface of `process` (lines 90-94) -/

/-- Modelled from the spec: `convert_to_int` is defined in
`backend/lib/helpers.py`, which is not among the sources here; per the
spec it yields the value as an integer, with the given default used
when the parameter is absent or non-numeric.  A raw parameter value is
modelled as `Option Int`: `some n` for a value that converts to `n`,
`none` for an absent or non-numeric one. -/
def convert_to_int (value : Option Int) (default : Int) : Int :=
  value.getD default

/-- `self.parameters` as read by `process`. -/
structure Params where
  algorithm : Option (List Char)
  window : Option Int
  negative : Bool
  min_count : Option Int
  dimensionality : Option Int

/-- Line 90: `1 if self.parameters.get("algorithm") == "skipgram" else 0`. -/
def use_skipgram (a : Option (List Char)) : Int :=
  if a = some (("skipgram").data) then 1 else 0

/-- Line 91: `min(10, max(1, convert_to_int(..., 5)))`. -/
def windowUsed (v : Option Int) : Int :=
  min 10 (max 1 (convert_to_int v 5))

/-- Line 92: `5 if self.parameters.get("negative") else 0`. -/
def use_negative (b : Bool) : Int :=
  if b then 5 else 0

/-- Line 93: `max(1, convert_to_int(..., 1))`. -/
def minCountUsed (v : Option Int) : Int :=
  max 1 (convert_to_int v 1)

/-- Line 94: `convert_to_int(self.parameters.get("dimensionality"), 100)`
— no clamping is applied here. -/
def dimensionalityUsed (v : Option Int) : Int :=
  convert_to_int v 100

/-- The keyword arguments passed to `Word2Vec(...)` on line 127
(`size`, `window`, `sg`, `negative`, `min_count`). -/
structure TrainCall where
  size : Int
  window : Int
  sg : Int
  negative : Int
  min_count : Int
deriving DecidableEq

def paramTrainCall (p : Params) : TrainCall :=
  ⟨dimensionalityUsed p.dimensionality, windowUsed p.window,
   use_skipgram p.algorithm, use_negative p.negative,
   minCountUsed p.min_count⟩

/-! ### The per-file loop of `process` (lines 106-136) -/

/-- `ZipFile.extract` resolves a member name through the archive's
name-to-info table, in which a later member of the same name shadows
an earlier one; `none` models the `KeyError` for an absent name. -/
def archiveLookup (entries : List (List Char × List Char)) (n : List Char) :
    Option (List Char) :=
  match entries with
  | [] => none
  | e :: rest =>
    match archiveLookup rest n with
    | some c => some c
    | none => if e.1 = n then some e.2 else none

structure LoopOut where
  events : List Ev
  trainCalls : List TrainCall
  next : Nat
  outcome : Outcome

/-- The `for token_set in token_sets` loop.  Per token set: poll the
interruption flag (line 107), extract the member named
`token_set.split("/")[-1]` (lines 112-116), stream it once for
`Phrases` (line 124) and once for `Word2Vec` (line 127) — both
constructors iterate the generator to exhaustion, and any exception it
raises propagates and aborts the run — then save the keyed vectors as
`<name before first dot>.model` (lines 131-132) and count the model
(line 134). -/
def processFiles (arch : List (List Char × List Char)) (pollF : Nat → Bool)
    (tc : TrainCall) : List (List Char × List Char) → Nat → LoopOut
  | [], i => ⟨[], [], i, Outcome.ok⟩
  | entry :: rest, i =>
    if pollF i then ⟨[Ev.poll i true], [], i + 1, Outcome.interrupted⟩
    else
      let tsName := lastComponent entry.1
      match archiveLookup arch tsName with
      | none => ⟨[Ev.poll i false, Ev.fileStart tsName], [], i + 1, Outcome.extractError⟩
      | some content =>
        let r1 := tokens_from_file tsName content pollF (i + 1)
        if r1.stop = Outcome.ok then
          let r2 := tokens_from_file tsName content pollF r1.next
          if r2.stop = Outcome.ok then
            let lo := processFiles arch pollF tc rest r2.next
            ⟨Ev.poll i false :: Ev.fileStart tsName ::
               (r1.events ++ r2.events ++ (Ev.save (modelNameFor tsName) :: lo.events)),
             tc :: lo.trainCalls, lo.next, lo.outcome⟩
          else
            ⟨Ev.poll i false :: Ev.fileStart tsName :: (r1.events ++ r2.events),
             [], r2.next, r2.stop⟩
        else
          ⟨Ev.poll i false :: Ev.fileStart tsName :: r1.events, [], r1.next, r1.stop⟩

/-! ### The whole run of `process` (lines 83-148) -/

/-- The model file names saved during a run, in order. -/
def savesOf (evs : List Ev) : List (List Char) :=
  evs.filterMap (fun e => match e with | Ev.save n => some n | _ => none)

/-- Observable result of one `process` run.  `resultArchive` is the
list of member names written to the results zip, `some` only when the
archive file is created (lines 139-142); `stagingRemoved` records
whether `shutil.rmtree(temp_path)` ran (line 145); `finishCount` is
the argument of `self.dataset.finish` (line 148). -/
structure RunResult where
  events : List Ev
  outcome : Outcome
  resultArchive : Option (List (List Char))
  stagingRemoved : Bool
  finishCount : Option Nat
  trainCalls : List TrainCall

/-- `process(self)`: create the staging area, run the per-file loop,
and — only when the loop finishes normally — write every staged
`*.model` file (each saved name once, since saving an existing name
overwrites it) into the results archive, remove the staging directory
and call `finish(models)`.  On any exception the remaining statements
of `process` never run: no archive, no `rmtree`, no `finish`. -/
def process (entries : List (List Char × List Char)) (p : Params)
    (pollF : Nat → Bool) : RunResult :=
  let lo := processFiles entries pollF (paramTrainCall p) entries 0
  if lo.outcome = Outcome.ok then
    ⟨lo.events, Outcome.ok, some ((savesOf lo.events).dedup), true,
     some lo.trainCalls.length, lo.trainCalls⟩
  else ⟨lo.events, lo.outcome, none, false, none, lo.trainCalls⟩

/-! ### Poll discipline: every file start and every yield is
immediately preceded by a (negative) read of the interruption flag -/

/-- Events that must be immediately preceded by a poll returning
`false`: starting a token file and producing a token list. -/
def needsPoll : Ev → Bool
  | Ev.fileStart _ => true
  | Ev.yieldTok => true
  | _ => false

def isFalsePoll : Option Ev → Bool
  | some (Ev.poll _ false) => true
  | _ => false

/-- `chk prev evs` checks, walking `evs` with `prev` the immediately
preceding event, that every `fileStart` and every `yieldTok` directly
follows a poll of the interruption flag that returned `false`. -/
def chk : Option Ev → List Ev → Bool
  | _, [] => true
  | prev, e :: rest => (!(needsPoll e) || isFalsePoll prev) && chk (some e) rest

/-! ### Concrete sample inputs used by the closed theorems below -/

/-- An interruption flag that is never set. -/
def pollNever : Nat → Bool := fun _ => false

/-- An interruption flag that is set from the start of the run. -/
def pollAlways : Nat → Bool := fun _ => true

/-- An interruption flag that becomes (and stays) set at poll `k`. -/
def pollFrom (k : Nat) : Nat → Bool := fun i => decide (k ≤ i)

/-- A well-formed streaming-form token file: the token list `["a"]`
dumped with its trailing comma, then the final line containing exactly
`]`. -/
def streamFileA : List Char := ("[[\"a\"],\n]").data

/-- A legacy whole-document token file encoding `[["a"], ["b"]]`,
laid out over several lines so its first line is not a
trailing-comma-terminated JSON array. -/
def legacyFileAB : List Char := ("[\n[\"a\"],\n[\"b\"]\n]").data

/-- Token file content on which the reader terminates cleanly after
yielding `["x"]` and `["y"]`: the last streamed line carries no
trailing comma, so its line parse fails and the whole-file fallback
parses this syntactically complete JSON array, ending the generator. -/
def cleanFileXY : List Char := ("[[\"x\"],\n[\"y\"]]").data

/-- All parameters absent / defaulted. -/
def defaultParams : Params := ⟨none, none, false, none, none⟩

/-- Parameters requesting a dimensionality of 2000. -/
def paramsDim2000 : Params := ⟨none, none, false, none, some 2000⟩

def sampleOneEntry : List (List Char × List Char) :=
  [((("a.json").data), cleanFileXY)]

def sampleTwoEntries : List (List Char × List Char) :=
  [((("a.json").data), cleanFileXY), ((("b.json").data), cleanFileXY)]

/-- One archive entry whose file name contains an extra dot. -/
def entryDotted : List (List Char × List Char) :=
  [((("a.b.json").data), cleanFileXY)]

theorem chk_append_of (b : List Ev) :
    ∀ (a : List Ev) (prev : Option Ev), chk prev a = true →
      (∀ q, chk q b = true) → chk prev (a ++ b) = true := by
  intro a
  induction a with
  | nil => intro prev _ h2; simpa using h2 prev
  | cons e a ih =>
    intro prev h1 h2
    simp only [List.cons_append, chk, Bool.and_eq_true] at h1 ⊢
    exact ⟨h1.1, ih (some e) h1.2 h2⟩

theorem readLoop_chk (full : List Char) (pollF : Nat → Bool) :
    ∀ (lines : List (List Char)) (i : Nat) (prev : Option Ev),
      chk prev (readLoop full pollF lines i).events = true := by
  intro lines
  induction lines with
  | nil =>
    intro i prev
    simp only [readLoop]
    split
    · simp [chk, needsPoll]
    · split <;> simp [chk, needsPoll]
  | cons line rest ih =>
    intro i prev
    simp only [readLoop]
    split
    · simp [chk, needsPoll]
    · split
      · simp [chk, needsPoll]
      · split
        · simp only [chk, needsPoll, isFalsePoll, Bool.and_eq_true, Bool.not_false,
            Bool.not_true, Bool.true_or, Bool.false_or, Bool.or_true, true_and]
          exact ih (i + 1) (some Ev.yieldTok)
        · split <;> simp [chk, needsPoll]

theorem tokens_from_file_chk (file content : List Char) (pollF : Nat → Bool)
    (i : Nat) (prev : Option Ev) :
    chk prev (tokens_from_file file content pollF i).events = true := by
  simp only [tokens_from_file, textTokensFromFile]
  split
  · simp [chk]
  · exact readLoop_chk content pollF _ i prev

theorem processFiles_chk (arch : List (List Char × List Char))
    (pollF : Nat → Bool) (tc : TrainCall) :
    ∀ (remaining : List (List Char × List Char)) (i : Nat) (prev : Option Ev),
      chk prev (processFiles arch pollF tc remaining i).events = true := by
  intro remaining
  induction remaining with
  | nil => intro i prev; simp [processFiles, chk]
  | cons entry rest ih =>
    intro i prev
    simp only [processFiles]
    split
    · simp [chk, needsPoll]
    · split
      · simp [chk, needsPoll, isFalsePoll]
      · split
        · split
          · simp only [chk, needsPoll, isFalsePoll, Bool.and_eq_true, Bool.not_false,
              Bool.not_true, Bool.true_or, Bool.false_or, Bool.or_true, true_and]
            refine chk_append_of _ _ _ ?_ ?_
            · refine chk_append_of _ _ _ (tokens_from_file_chk _ _ _ _ _) ?_
              intro q
              exact tokens_from_file_chk _ _ _ _ _
            · intro q
              simp only [chk, needsPoll, Bool.and_eq_true, Bool.not_false, Bool.true_or,
                true_and]
              exact ih _ (some (Ev.save (modelNameFor (lastComponent entry.1))))
          · simp only [chk, needsPoll, isFalsePoll, Bool.and_eq_true, Bool.not_false,
              Bool.not_true, Bool.true_or, Bool.false_or, Bool.or_true, true_and]
            refine chk_append_of _ _ _ (tokens_from_file_chk _ _ _ _ _) ?_
            intro q
            exact tokens_from_file_chk _ _ _ _ _
        · simp only [chk, needsPoll, isFalsePoll, Bool.and_eq_true, Bool.not_false,
            Bool.not_true, Bool.true_or, Bool.false_or, Bool.or_true, true_and]
          exact tokens_from_file_chk _ _ _ _ _

/-! ### A poll that observes the interruption flag ends the run:
it is the final event, and the outcome is `interrupted` -/

theorem readLoop_truePoll (full : List Char) (pollF : Nat → Bool) :
    ∀ (lines : List (List Char)) (i j : Nat),
      Ev.poll j true ∈ (readLoop full pollF lines i).events →
      (readLoop full pollF lines i).stop = Outcome.interrupted ∧
      ∃ pre, (readLoop full pollF lines i).events = pre ++ [Ev.poll j true] := by
  intro lines
  induction lines with
  | nil =>
    intro i j
    simp only [readLoop]
    split
    · intro hmem
      simp only [List.mem_singleton] at hmem
      refine ⟨rfl, [], ?_⟩
      simpa using hmem.symm
    · split <;> intro hmem <;> simp at hmem
  | cons line rest ih =>
    intro i j
    simp only [readLoop]
    split
    · intro hmem
      simp only [List.mem_singleton] at hmem
      refine ⟨rfl, [], ?_⟩
      simpa using hmem.symm
    · split
      · intro hmem
        simp at hmem
      · split
        · intro hmem
          simp only [List.mem_cons] at hmem
          rcases hmem with h | h | h
          · simp at h
          · simp at h
          · obtain ⟨hstop, pre, hpre⟩ := ih (i + 1) j h
            exact ⟨hstop, Ev.poll i false :: Ev.yieldTok :: pre, by simp [hpre]⟩
        · split <;> intro hmem <;> simp at hmem

theorem tokens_from_file_truePoll (file content : List Char) (pollF : Nat → Bool)
    (i j : Nat) :
    Ev.poll j true ∈ (tokens_from_file file content pollF i).events →
    (tokens_from_file file content pollF i).stop = Outcome.interrupted ∧
    ∃ pre, (tokens_from_file file content pollF i).events = pre ++ [Ev.poll j true] := by
  simp only [tokens_from_file, textTokensFromFile]
  split
  · intro hmem; simp at hmem
  · exact readLoop_truePoll content pollF _ i j

theorem exists_concat_cons {α : Type} (x : α) {l : List α} (t : α)
    (h : ∃ p, l = p ++ [t]) : ∃ p, x :: l = p ++ [t] := by
  obtain ⟨p, rfl⟩ := h
  exact ⟨x :: p, rfl⟩

theorem exists_concat_append {α : Type} (a : List α) {l : List α} (t : α)
    (h : ∃ p, l = p ++ [t]) : ∃ p, a ++ l = p ++ [t] := by
  obtain ⟨p, rfl⟩ := h
  exact ⟨a ++ p, by simp⟩

theorem processFiles_truePoll (arch : List (List Char × List Char))
    (pollF : Nat → Bool) (tc : TrainCall) :
    ∀ (remaining : List (List Char × List Char)) (i j : Nat),
      Ev.poll j true ∈ (processFiles arch pollF tc remaining i).events →
      (processFiles arch pollF tc remaining i).outcome = Outcome.interrupted ∧
      ∃ pre, (processFiles arch pollF tc remaining i).events = pre ++ [Ev.poll j true] := by
  intro remaining
  induction remaining with
  | nil => intro i j hmem; simp [processFiles] at hmem
  | cons entry rest ih =>
    intro i j
    simp only [processFiles]
    split
    · intro hmem
      simp only [List.mem_singleton] at hmem
      refine ⟨rfl, [], ?_⟩
      simpa using hmem.symm
    · split
      · intro hmem
        simp at hmem
      · split
        · rename_i h1ok
          split
          · rename_i h2ok
            intro hmem
            simp only [List.mem_cons, List.mem_append] at hmem
            rcases hmem with h | h | (h | h) | h | h
            · simp at h
            · simp at h
            · have hs := (tokens_from_file_truePoll _ _ _ _ _ h).1
              rw [h1ok] at hs
              simp at hs
            · have hs := (tokens_from_file_truePoll _ _ _ _ _ h).1
              rw [h2ok] at hs
              simp at hs
            · simp at h
            · obtain ⟨hout, hpre⟩ := ih _ j h
              exact ⟨hout, exists_concat_cons _ _ (exists_concat_cons _ _
                (exists_concat_append _ _ (exists_concat_cons _ _ hpre)))⟩
          · rename_i h2no
            intro hmem
            simp only [List.mem_cons, List.mem_append] at hmem
            rcases hmem with h | h | h | h
            · simp at h
            · simp at h
            · have hs := (tokens_from_file_truePoll _ _ _ _ _ h).1
              rw [h1ok] at hs
              simp at hs
            · obtain ⟨hstop, hpre⟩ := tokens_from_file_truePoll _ _ _ _ _ h
              exact ⟨hstop, exists_concat_cons _ _ (exists_concat_cons _ _
                (exists_concat_append _ _ hpre))⟩
        · rename_i h1no
          intro hmem
          simp only [List.mem_cons] at hmem
          rcases hmem with h | h | h
          · simp at h
          · simp at h
          · obtain ⟨hstop, hpre⟩ := tokens_from_file_truePoll _ _ _ _ _ h
            exact ⟨hstop, exists_concat_cons _ _ (exists_concat_cons _ _ hpre)⟩

/-! ### Saved model names -/

theorem savesOf_nil : savesOf [] = [] := rfl

theorem savesOf_poll (i : Nat) (b : Bool) (l : List Ev) :
    savesOf (Ev.poll i b :: l) = savesOf l := rfl

theorem savesOf_fileStart (n : List Char) (l : List Ev) :
    savesOf (Ev.fileStart n :: l) = savesOf l := rfl

theorem savesOf_yield (l : List Ev) :
    savesOf (Ev.yieldTok :: l) = savesOf l := rfl

theorem savesOf_save (n : List Char) (l : List Ev) :
    savesOf (Ev.save n :: l) = n :: savesOf l := rfl

theorem savesOf_append (a b : List Ev) :
    savesOf (a ++ b) = savesOf a ++ savesOf b :=
  List.filterMap_append a b _

theorem readLoop_savesOf (full : List Char) (pollF : Nat → Bool) :
    ∀ (lines : List (List Char)) (i : Nat),
      savesOf (readLoop full pollF lines i).events = [] := by
  intro lines
  induction lines with
  | nil =>
    intro i
    simp only [readLoop]
    split
    · rfl
    · split <;> rfl
  | cons line rest ih =>
    intro i
    simp only [readLoop]
    split
    · rfl
    · split
      · rfl
      · split
        · simpa [savesOf_poll, savesOf_yield] using ih (i + 1)
        · split <;> rfl

theorem tokens_from_file_savesOf (file content : List Char) (pollF : Nat → Bool)
    (i : Nat) : savesOf (tokens_from_file file content pollF i).events = [] := by
  simp only [tokens_from_file, textTokensFromFile]
  split
  · rfl
  · exact readLoop_savesOf content pollF _ i

theorem processFiles_ok (arch : List (List Char × List Char))
    (pollF : Nat → Bool) (tc : TrainCall) :
    ∀ (remaining : List (List Char × List Char)) (i : Nat),
      (processFiles arch pollF tc remaining i).outcome = Outcome.ok →
      savesOf (processFiles arch pollF tc remaining i).events
        = remaining.map (fun e => modelNameFor (lastComponent e.1)) ∧
      (processFiles arch pollF tc remaining i).trainCalls
        = remaining.map (fun _ => tc) := by
  intro remaining
  induction remaining with
  | nil => intro i _; exact ⟨rfl, rfl⟩
  | cons entry rest ih =>
    intro i
    simp only [processFiles]
    split
    · intro hout; simp at hout
    · split
      · intro hout; simp at hout
      · split
        · split
          · intro hout
            obtain ⟨hs, ht⟩ := ih _ hout
            constructor
            · simp only [savesOf_poll, savesOf_fileStart, savesOf_append,
                tokens_from_file_savesOf, savesOf_save, List.nil_append, List.map_cons]
              rw [hs]
            · simp only [List.map_cons]
              rw [ht]
          · rename_i h2no
            intro hout
            exact absurd hout h2no
        · rename_i h1no
          intro hout
          exact absurd hout h1no

theorem processFiles_trainCalls_mem (arch : List (List Char × List Char))
    (pollF : Nat → Bool) (tc : TrainCall) :
    ∀ (remaining : List (List Char × List Char)) (i : Nat) (c : TrainCall),
      c ∈ (processFiles arch pollF tc remaining i).trainCalls → c = tc := by
  intro remaining
  induction remaining with
  | nil => intro i c h; simp [processFiles] at h
  | cons entry rest ih =>
    intro i c
    simp only [processFiles]
    split
    · intro h; simp at h
    · split
      · intro h; simp at h
      · split
        · split
          · intro h
            simp only [List.mem_cons] at h
            rcases h with h | h
            · exact h
            · exact ih _ c h
          · intro h; simp at h
        · intro h; simp at h

theorem processFiles_savesMem (arch : List (List Char × List Char))
    (pollF : Nat → Bool) (tc : TrainCall) :
    ∀ (remaining : List (List Char × List Char)) (i : Nat) (n : List Char),
      Ev.save n ∈ (processFiles arch pollF tc remaining i).events →
      ∃ e, e ∈ remaining ∧ n = modelNameFor (lastComponent e.1) := by
  intro remaining
  induction remaining with
  | nil => intro i n h; simp [processFiles] at h
  | cons entry rest ih =>
    intro i n
    simp only [processFiles]
    split
    · intro h; simp at h
    · split
      · intro h; simp at h
      · have noSave : ∀ (f c : List Char) (k : Nat),
            Ev.save n ∈ (tokens_from_file f c pollF k).events → False := by
          intro f c k h
          have : n ∈ savesOf (tokens_from_file f c pollF k).events :=
            List.mem_filterMap.mpr ⟨Ev.save n, h, rfl⟩
          rw [tokens_from_file_savesOf] at this
          simp at this
        split
        · split
          · intro h
            simp only [List.mem_cons, List.mem_append] at h
            rcases h with h | h | (h | h) | h | h
            · simp at h
            · simp at h
            · exact absurd h (fun hh => noSave _ _ _ hh)
            · exact absurd h (fun hh => noSave _ _ _ hh)
            · simp only [Ev.save.injEq] at h
              exact ⟨entry, List.mem_cons_self entry rest, h⟩
            · obtain ⟨e, he, hn⟩ := ih _ n h
              exact ⟨e, List.mem_cons_of_mem entry he, hn⟩
          · intro h
            simp only [List.mem_cons, List.mem_append] at h
            rcases h with h | h | h | h
            · simp at h
            · simp at h
            · exact absurd h (fun hh => noSave _ _ _ hh)
            · exact absurd h (fun hh => noSave _ _ _ hh)
        · intro h
          simp only [List.mem_cons] at h
          rcases h with h | h | h
          · simp at h
          · simp at h
          · exact absurd h (fun hh => noSave _ _ _ hh)

/-! ### Unfolding `process` -/

theorem process_eq_of_ok (entries : List (List Char × List Char)) (p : Params)
    (pollF : Nat → Bool)
    (h : (processFiles entries pollF (paramTrainCall p) entries 0).outcome = Outcome.ok) :
    process entries p pollF =
      ⟨(processFiles entries pollF (paramTrainCall p) entries 0).events, Outcome.ok,
       some ((savesOf (processFiles entries pollF (paramTrainCall p) entries 0).events).dedup),
       true,
       some (processFiles entries pollF (paramTrainCall p) entries 0).trainCalls.length,
       (processFiles entries pollF (paramTrainCall p) entries 0).trainCalls⟩ := by
  simp only [process]
  rw [if_pos h]

theorem process_eq_of_not_ok (entries : List (List Char × List Char)) (p : Params)
    (pollF : Nat → Bool)
    (h : ¬((processFiles entries pollF (paramTrainCall p) entries 0).outcome = Outcome.ok)) :
    process entries p pollF =
      ⟨(processFiles entries pollF (paramTrainCall p) entries 0).events,
       (processFiles entries pollF (paramTrainCall p) entries 0).outcome,
       none, false, none,
       (processFiles entries pollF (paramTrainCall p) entries 0).trainCalls⟩ := by
  simp only [process]
  rw [if_neg h]

theorem process_events (entries : List (List Char × List Char)) (p : Params)
    (pollF : Nat → Bool) :
    (process entries p pollF).events
      = (processFiles entries pollF (paramTrainCall p) entries 0).events := by
  simp only [process]
  split <;> rfl

theorem process_trainCalls (entries : List (List Char × List Char)) (p : Params)
    (pollF : Nat → Bool) :
    (process entries p pollF).trainCalls
      = (processFiles entries pollF (paramTrainCall p) entries 0).trainCalls := by
  simp only [process]
  split <;> rfl

theorem process_outcome_ok (entries : List (List Char × List Char)) (p : Params)
    (pollF : Nat → Bool) (h : (process entries p pollF).outcome = Outcome.ok) :
    (processFiles entries pollF (paramTrainCall p) entries 0).outcome = Outcome.ok := by
  by_contra hno
  rw [process_eq_of_not_ok entries p pollF hno] at h
  exact hno h

/-! ### The claims -/

/-- C1.  The claim: for every valid streaming-form token file,
iterating `tokens_from_file` yields exactly the encoded token lists,
in order, on every read in a run.  The code contradicts it: for the
well-formed streaming file `[["a"],` + newline + `]` (final line
containing exactly `]`, as the format prescribes), both the first and
a repeated read do yield the encoded `["a"]`, but the iteration then
terminates with a `RuntimeError` — the `raise StopIteration` that was
meant to end the stream (line 176) is converted by PEP 479 (Python
≥ 3.7) instead of ending the generator cleanly. -/
theorem c1_streaming_end_bug :
    (tokens_from_file (("t.json").data) streamFileA pollNever 0).yields
      = [JVal.arr [JVal.str (("a").data)]] ∧
    (tokens_from_file (("t.json").data) streamFileA pollNever 0).stop
      = Outcome.runtimeError ∧
    (tokens_from_file (("t.json").data) streamFileA pollNever 2).yields
      = [JVal.arr [JVal.str (("a").data)]] ∧
    (tokens_from_file (("t.json").data) streamFileA pollNever 2).stop
      = Outcome.runtimeError :=
  ⟨rfl, rfl, rfl, rfl⟩

/-- C2.  The claim: when the first line fails the
trailing-comma-array parse, the caller receives all elements of the
whole-file legacy JSON array.  The code contradicts it: on the legacy
file `[` / `["a"],` / `["b"]` / `]` (one token list per line, no
streaming commas on line one), the whole-file parse succeeds and
produces `[["a"], ["b"]]`, but `return json.load(input)` executes
inside a generator, so that list becomes the discarded value of the
generator's `StopIteration` and the caller receives zero token
lists. -/
theorem c2_legacy_fallback_bug :
    jsonLoads legacyFileAB
      = some (JVal.arr [JVal.arr [JVal.str (("a").data)],
                        JVal.arr [JVal.str (("b").data)]]) ∧
    (tokens_from_file (("t.json").data) legacyFileAB pollNever 0).yields = [] ∧
    (tokens_from_file (("t.json").data) legacyFileAB pollNever 0).stop = Outcome.ok :=
  ⟨rfl, rfl, rfl⟩

/-- C7.  The claim: an empty staged file yields an empty sequence
rather than failing.  The code contradicts it: on an empty file,
`readline()` returns `""` (never `None`, so the EOF break on line 168
is dead), `json.loads("")` fails, and the whole-file fallback
`json.load` on the empty file raises a `JSONDecodeError`, so the read
fails instead of yielding an empty sequence. -/
theorem c7_empty_file_bug :
    (tokens_from_file (("t.json").data) [] pollNever 0).yields = [] ∧
    (tokens_from_file (("t.json").data) [] pollNever 0).stop = Outcome.decodeError :=
  ⟨rfl, rfl⟩

/-- C3, counterexample.  The claim says the staging directory is gone
on every exit path; on a run that is interrupted at the very first
poll, `process` raises before reaching `shutil.rmtree(temp_path)`
(line 145), so the staging directory survives. -/
theorem c3_staging_counterexample :
    (process sampleOneEntry defaultParams pollAlways).outcome = Outcome.interrupted ∧
    (process sampleOneEntry defaultParams pollAlways).stagingRemoved = false :=
  ⟨rfl, rfl⟩

/-- C3, amended.  The staging directory is removed exactly on the
normal-completion path: `shutil.rmtree` runs if and only if the run
ends with outcome `ok`; on an Interrupted or any other failure the
directory (and whatever it still contains) is left behind by
`process`. -/
theorem c3_staging_amended (entries : List (List Char × List Char)) (p : Params)
    (pollF : Nat → Bool) :
    (process entries p pollF).stagingRemoved = true ↔
      (process entries p pollF).outcome = Outcome.ok := by
  simp only [process]
  split
  · simp
  · rename_i h
    simp [h]

theorem c3_staging_witness :
    (process ([] : List (List Char × List Char)) defaultParams pollNever).stagingRemoved
      = true :=
  (c3_staging_amended [] defaultParams pollNever).mpr rfl

/-- C4.  Cancellation.  (1) In every run's event trace, each
`fileStart` and each `yieldTok` is immediately preceded by a poll of
the interruption flag that returned `false` (`chk`): the flag is
polled before each token file begins processing and before each token
list is produced.  (2) If some poll observes the flag, the run's
outcome is Interrupted, that poll is the final event of the trace (so
no further token file is started, no token list produced and no model
saved after it), no results archive is written at all — hence the
result archive holds at most the models of the N already-completed
files and never a partial (N+1)-th one — and `finish` is not
called. -/
theorem c4_cancellation (entries : List (List Char × List Char)) (p : Params)
    (pollF : Nat → Bool) :
    chk none (process entries p pollF).events = true ∧
    ∀ j, Ev.poll j true ∈ (process entries p pollF).events →
      (process entries p pollF).outcome = Outcome.interrupted ∧
      (∃ pre, (process entries p pollF).events = pre ++ [Ev.poll j true]) ∧
      (process entries p pollF).resultArchive = none ∧
      (process entries p pollF).finishCount = none := by
  constructor
  · rw [process_events]
    exact processFiles_chk _ _ _ _ _ _
  · intro j hmem
    rw [process_events] at hmem
    obtain ⟨hout, hpre⟩ := processFiles_truePoll _ _ _ _ _ j hmem
    have hno : ¬((processFiles entries pollF (paramTrainCall p) entries 0).outcome
        = Outcome.ok) := by
      rw [hout]
      simp
    rw [process_eq_of_not_ok entries p pollF hno]
    exact ⟨hout, hpre, rfl, rfl⟩

theorem c4_cancellation_witness :
    (process sampleTwoEntries defaultParams (pollFrom 7)).outcome = Outcome.interrupted ∧
    (process sampleTwoEntries defaultParams (pollFrom 7)).resultArchive = none ∧
    (process sampleTwoEntries defaultParams (pollFrom 7)).finishCount = none :=
  And.imp_right (fun h => ⟨h.2.1, h.2.2⟩)
    ((c4_cancellation sampleTwoEntries defaultParams (pollFrom 7)).2 7 (by decide))

/-- C5, counterexample.  The claim says the dimensionality used for
training always lies in [50, 1000].  A run requesting 2000 trains
with `size = 2000`: line 94 applies no clamping. -/
theorem c5_dimensionality_counterexample :
    (process sampleOneEntry paramsDim2000 pollNever).trainCalls.map TrainCall.size
      = [2000] ∧
    decide ((2000 : Int) ≤ 1000) = false :=
  ⟨rfl, rfl⟩

/-- C5, amended.  The dimensionality used to train is exactly
`convert_to_int(requested, 100)`: the requested integer itself when
the parameter is numeric — without clamping to [50, 1000] — and 100
when it is absent or non-numeric. -/
theorem c5_dimensionality_amended (entries : List (List Char × List Char)) (p : Params)
    (pollF : Nat → Bool) :
    ∀ c ∈ (process entries p pollF).trainCalls,
      c.size = convert_to_int p.dimensionality 100 ∧
      (p.dimensionality = none → c.size = 100) := by
  intro c hc
  rw [process_trainCalls] at hc
  have htc := processFiles_trainCalls_mem _ _ _ _ _ c hc
  subst htc
  refine ⟨rfl, ?_⟩
  intro h
  simp [paramTrainCall, dimensionalityUsed, convert_to_int, h]

theorem c5_dimensionality_witness :
    (paramTrainCall paramsDim2000).size = convert_to_int paramsDim2000.dimensionality 100 :=
  (c5_dimensionality_amended sampleOneEntry paramsDim2000 pollNever
    (paramTrainCall paramsDim2000) (by decide)).1

/-- C6.  The window used for training is `min(10, max(1, w))`, always
in [1, 10], with requested 0 clamped to 1 and requested 15 clamped to
10; the minimum-count cutoff is `max(1, m)`, always at least 1, with
requested 0 clamped to 1; and every training call of every run uses
exactly these clamped values. -/
theorem c6_window_min_count_clamping :
    (∀ v : Option Int, 1 ≤ windowUsed v ∧ windowUsed v ≤ 10) ∧
    windowUsed (some 0) = 1 ∧
    windowUsed (some 15) = 10 ∧
    minCountUsed (some 0) = 1 ∧
    (∀ v : Option Int, 1 ≤ minCountUsed v) ∧
    ∀ (entries : List (List Char × List Char)) (p : Params) (pollF : Nat → Bool),
      ∀ c ∈ (process entries p pollF).trainCalls,
        c.window = windowUsed p.window ∧ c.min_count = minCountUsed p.min_count := by
  refine ⟨?_, by decide, by decide, by decide, ?_, ?_⟩
  · intro v
    exact ⟨le_min (by norm_num) (le_max_left 1 _), min_le_left _ _⟩
  · intro v
    exact le_max_left 1 _
  · intro entries p pollF c hc
    rw [process_trainCalls] at hc
    have htc := processFiles_trainCalls_mem _ _ _ _ _ c hc
    subst htc
    exact ⟨rfl, rfl⟩

theorem c6_window_min_count_witness :
    1 ≤ windowUsed (some 15) ∧
    (paramTrainCall defaultParams).window = windowUsed defaultParams.window :=
  ⟨(c6_window_min_count_clamping.1 (some 15)).1,
   (c6_window_min_count_clamping.2.2.2.2.2 sampleOneEntry defaultParams pollNever
      (paramTrainCall defaultParams) (by decide)).1⟩

/-- C8, counterexample.  The claim says the model for an entry is
named `<base>.model` with `<base>` the entry name minus its file-type
suffix.  For the entry `a.b.json` (base `a.b`), the code uses
`token_set_name.split(".")[0]` — the text before the *first* dot —
and saves and archives `a.model`, not `a.b.model`. -/
theorem c8_naming_counterexample :
    savesOf (process entryDotted defaultParams pollNever).events = [(("a.model").data)] ∧
    (process entryDotted defaultParams pollNever).resultArchive
      = some [(("a.model").data)] ∧
    ((("a.model").data) == (("a.b.model").data)) = false :=
  ⟨rfl, rfl, rfl⟩

/-- C8, amended.  The model file written for an entry is named
`<base>.model` where `<base>` is the part of the entry's file name
(its last path component) before its *first* dot, and the members of
the results archive carry exactly these saved names (each once): on a
completed run the saved names are, in order, `modelNameFor` of each
entry, and any saved name in any run comes from some entry this
way. -/
theorem c8_naming_amended (entries : List (List Char × List Char)) (p : Params)
    (pollF : Nat → Bool) :
    ((process entries p pollF).outcome = Outcome.ok →
      savesOf (process entries p pollF).events
        = entries.map (fun e => modelNameFor (lastComponent e.1)) ∧
      (process entries p pollF).resultArchive
        = some ((savesOf (process entries p pollF).events).dedup)) ∧
    ∀ n, Ev.save n ∈ (process entries p pollF).events →
      ∃ e, e ∈ entries ∧ n = modelNameFor (lastComponent e.1) := by
  constructor
  · intro hok
    have hok' := process_outcome_ok entries p pollF hok
    obtain ⟨hs, _⟩ := processFiles_ok _ _ _ _ _ hok'
    rw [process_eq_of_ok entries p pollF hok']
    exact ⟨hs, rfl⟩
  · intro n hmem
    rw [process_events] at hmem
    exact processFiles_savesMem _ _ _ _ _ n hmem

theorem c8_naming_witness :
    savesOf (process sampleTwoEntries defaultParams pollNever).events
      = sampleTwoEntries.map (fun e => modelNameFor (lastComponent e.1)) :=
  ((c8_naming_amended sampleTwoEntries defaultParams pollNever).1 (by decide)).1

/-- C9.  On a run that completes without cancellation or error, the
count handed to `finish` equals the number of models produced (the
`models` counter, one per `model.wv.save`), which equals the number of
entries of the source archive; and an empty source archive gives a
successful run with an empty results archive and `finish(0)`. -/
theorem c9_finish_count (entries : List (List Char × List Char)) (p : Params)
    (pollF : Nat → Bool) :
    ((process entries p pollF).outcome = Outcome.ok →
      (process entries p pollF).finishCount
        = some (savesOf (process entries p pollF).events).length ∧
      (savesOf (process entries p pollF).events).length = entries.length) ∧
    (entries = [] →
      (process entries p pollF).outcome = Outcome.ok ∧
      (process entries p pollF).resultArchive = some [] ∧
      (process entries p pollF).finishCount = some 0) := by
  constructor
  · intro hok
    have hok' := process_outcome_ok entries p pollF hok
    obtain ⟨hs, ht⟩ := processFiles_ok _ _ _ _ _ hok'
    rw [process_eq_of_ok entries p pollF hok']
    constructor
    · rw [hs, ht]
      simp
    · rw [hs]
      simp
  · rintro rfl
    exact ⟨rfl, rfl, rfl⟩

theorem c9_finish_count_witness :
    (process ([] : List (List Char × List Char)) defaultParams pollNever).finishCount
      = some 0 :=
  ((c9_finish_count [] defaultParams pollNever).2 rfl).2.2

/-- C10.  `Path.suffix` is either empty or begins with a dot, so the
comparison `file.suffix == "pb"` on line 160 is never true and the
pickle branch is unreachable: for every path — including one ending in
`.pb`, whose suffix is `.pb`, not `pb` — `tokens_from_file` is the
text/JSON reading path. -/
theorem c10_pickle_unreachable :
    (∀ name : List Char, pySuffix name = [] ∨ ∃ s, pySuffix name = '.' :: s) ∧
    ∀ (file content : List Char) (pollF : Nat → Bool) (i : Nat),
      tokens_from_file file content pollF i = textTokensFromFile content pollF i := by
  have hsuf : ∀ name : List Char, pySuffix name = [] ∨ ∃ s, pySuffix name = '.' :: s := by
    intro name
    cases name with
    | nil => exact Or.inl rfl
    | cons c rest =>
      simp only [pySuffix]
      cases afterLastDot rest with
      | none => exact Or.inl rfl
      | some s =>
        by_cases hs : s = []
        · simp [hs]
        · simp only [if_neg hs]
          exact Or.inr ⟨s, rfl⟩
  refine ⟨hsuf, ?_⟩
  intro file content pollF i
  have hneq : ¬(pySuffix (lastComponent file) = ('p' :: 'b' :: [])) := by
    rcases hsuf (lastComponent file) with h | ⟨s, h⟩ <;> rw [h] <;> intro heq
    · cases heq
    · injection heq with h1 _
      exact absurd h1 (by decide)
  simp only [tokens_from_file]
  rw [if_neg hneq]

end GenWord2Vec
